import Mathlib

/-!
Shallow embedding of `src/App.tsx` of the bezier-playground repository.

JS `number` arithmetic is modelled exactly over an arbitrary linear ordered
field `α` (concrete witnesses instantiate `α := ℚ`; the real numbers are a
further instance).  `Math.sin` and `Math.PI` are host-environment values and
are passed as explicit parameters `sinf` and `piv` to the definitions that
use them, keeping every definition executable.  A `parseInt` result is an
`Option ℤ`, where `none` models `NaN`.
-/

namespace Bezier

/-- The `Point` interface (App.tsx lines 5-8): a 2D coordinate. -/
@[ext]
structure Point (α : Type) where
  x : α
  y : α
deriving DecidableEq

variable {α : Type} [LinearOrderedField α]

/-- One pass of the interpolation loop shared by `calculateBezierPoint`
(App.tsx lines 34-40) and `intermediatePoints` (lines 89-96): for each
adjacent pair the point `(1-t)*p_i + t*p_(i+1)`, componentwise on x and y.
On a list of length at most 1 the loop body never runs and the result
is `[]`. -/
def lerpStep (t : α) : List (Point α) → List (Point α)
  | p :: q :: rest =>
      ⟨(1 - t) * p.x + t * q.x, (1 - t) * p.y + t * q.y⟩ :: lerpStep t (q :: rest)
  | _ => []

/-- `calculateBezierPoint` (App.tsx lines 31-43) with an explicit call
budget `fuel` modelling the JS call stack: `none` means the recursion makes
more than `fuel` nested calls.  On a nonempty list every call strictly
shrinks the list, so `fuel = length` is exactly enough; on the empty list
the interpolation loop yields `[]` again, the recursion never reaches the
base case, and the model reports `none` for every budget. -/
def calcBezierAux (t : α) : ℕ → List (Point α) → Option (Point α)
  | 0, _ => none
  | fuel + 1, ps => if ps.length = 1 then ps.head? else calcBezierAux t fuel (lerpStep t ps)

/-- `calculateBezierPoint t ps`, run with the exactly-sufficient budget
`ps.length`. -/
def calculateBezierPoint (t : α) (ps : List (Point α)) : Option (Point α) :=
  calcBezierAux t ps.length ps

/-- The `while (currentPoints.length > 1)` loop of `intermediatePoints`
(App.tsx lines 88-99), with fuel; `fuel = ps.length` is exactly enough
since each iteration shrinks the list by one.  Returns the levels pushed
by the loop, in order. -/
def intermediateAux (t : α) : ℕ → List (Point α) → List (List (Point α))
  | 0, _ => []
  | fuel + 1, ps =>
      if 1 < ps.length then lerpStep t ps :: intermediateAux t fuel (lerpStep t ps) else []

/-- `intermediatePoints` (App.tsx lines 84-102): the construction pyramid,
level 0 being the control points themselves. -/
def intermediatePoints (t : α) (ps : List (Point α)) : List (List (Point α)) :=
  ps :: intermediateAux t ps.length ps

/-- `curvePoints` (App.tsx lines 46-52): 100 samples of the curve at
`t = i/99`, and `[]` when there are no control points. -/
def curvePoints (ps : List (Point α)) : List (Option (Point α)) :=
  if ps.length = 0 then []
  else (List.range 100).map fun (i : ℕ) => calculateBezierPoint ((i : α) / 99) ps

/-- The component state of `App` (App.tsx lines 11-15): parameter `t`, the
order input (a `parseInt` result, `none` = NaN), the control points and the
index currently being dragged. -/
structure AppState (α : Type) where
  t : α
  order : Option ℤ
  points : List (Point α)
  draggingIndex : Option ℕ

/-- The `useMemo` body of `curvePoints` (App.tsx lines 46-52) read off the
whole component state: it reads only `s.points`, never `s.t`. -/
def curvePointsOfState (s : AppState α) : List (Option (Point α)) :=
  if s.points.length = 0 then []
  else (List.range 100).map fun (i : ℕ) => calculateBezierPoint ((i : α) / 99) s.points

/-- `Math.max(1, Math.min(100, order))` (App.tsx line 20) where `order` is
a JS number that may be NaN (`none`): in JS both `Math.min` and `Math.max`
propagate NaN. -/
def safeOrder : Option ℤ → Option ℤ
  | none => none
  | some n => some (max 1 (min 100 n))

/-- The point layout of App.tsx lines 21-24: `safe + 1` points with
`x = 50 + i*700/safe` and `y = 200 - sin(i*PI/safe)*150`. -/
def layoutPoints (sinf : α → α) (piv : α) (safe : ℤ) : List (Point α) :=
  (List.range (safe.toNat + 1)).map fun (i : ℕ) =>
    ⟨50 + ((i : α) * 700) / (safe : α),
     200 - sinf (((i : α) * piv) / (safe : α)) * 150⟩

/-- `Array.from` with length `safeOrder + 1` when `safeOrder` may be NaN:
JS converts a NaN array length to 0, so a NaN budget yields the empty
array and the per-point formula is never evaluated. -/
def layoutArray (sinf : α → α) (piv : α) : Option ℤ → List (Point α)
  | none => []
  | some safe => layoutPoints sinf piv safe

/-- The order-initialization effect (App.tsx lines 18-28): compute
`safeOrder`, build the layout array, and replace the previous points only
when the array is nonempty.  A NaN order survives the clamp as NaN, the
array then has length 0, and the previous points are kept. -/
def orderEffect (sinf : α → α) (piv : α) (o : Option ℤ) (prev : List (Point α)) :
    List (Point α) :=
  let newPoints := layoutArray sinf piv (safeOrder o)
  if 0 < newPoints.length then newPoints else prev

/-- `handleMouseMove` (App.tsx lines 59-77).  `dragging` is
`draggingIndex`, `svgMounted` models `svgRef.current` being non-null,
`ctmOk` models `getScreenCTM()` returning a matrix, and `sp` is the
already-transformed pointer position in SVG coordinates (the
`matrixTransform` call is host-environment geometry). -/
def handleMouseMove (dragging : Option ℕ) (svgMounted ctmOk : Bool) (sp : Point α)
    (prev : List (Point α)) : List (Point α) :=
  match dragging with
  | none => prev
  | some di =>
    if svgMounted = false then prev
    else if ctmOk = false then prev
    else
      let x := max 0 (min 800 sp.x)
      let y := max 0 (min 400 sp.y)
      prev.mapIdx fun i p => if i = di then ⟨x, y⟩ else p

/-! ### Basic lemmas about the interpolation step -/

theorem lerpStep_length (t : α) : ∀ ps : List (Point α), (lerpStep t ps).length = ps.length - 1
  | [] => rfl
  | [_] => rfl
  | p :: q :: rest => by
    have ih := lerpStep_length t (q :: rest)
    simp only [lerpStep, List.length_cons] at ih ⊢
    omega

theorem lerpStep_zero : ∀ ps : List (Point α), lerpStep (0 : α) ps = ps.dropLast
  | [] => rfl
  | [_] => rfl
  | p :: q :: rest => by
    have ih := lerpStep_zero (q :: rest)
    rw [List.dropLast_cons₂, ← ih]
    simp [lerpStep]

theorem lerpStep_one : ∀ ps : List (Point α), lerpStep (1 : α) ps = ps.tail
  | [] => rfl
  | [_] => rfl
  | p :: q :: rest => by
    have ih := lerpStep_one (q :: rest)
    simp only [List.tail_cons] at ih ⊢
    rw [show lerpStep (1 : α) (p :: q :: rest)
        = ⟨(1 - 1) * p.x + 1 * q.x, (1 - 1) * p.y + 1 * q.y⟩ :: lerpStep 1 (q :: rest) from rfl]
    rw [ih]
    congr 1
    ext <;> simp

/-! ### Lemmas about the fueled recursions -/

theorem calcBezierAux_empty (t : α) :
    ∀ fuel : ℕ, calcBezierAux t fuel ([] : List (Point α)) = none
  | 0 => rfl
  | fuel + 1 => by
    have ih := calcBezierAux_empty t fuel
    simp [calcBezierAux, lerpStep, ih]

theorem calcBezierAux_none_of_lt (t : α) :
    ∀ (f : ℕ) (ps : List (Point α)), f < ps.length → calcBezierAux t f ps = none := by
  intro f
  induction f with
  | zero => intro ps _; rfl
  | succ g ih =>
    intro ps hf
    have h1 : ps.length ≠ 1 := by omega
    simp only [calcBezierAux, h1, if_false]
    exact ih (lerpStep t ps) (by rw [lerpStep_length]; omega)

theorem intermediatePoints_of_length_le_one (t : α) (ps : List (Point α))
    (h : ps.length ≤ 1) : intermediatePoints t ps = [ps] := by
  rcases ps with _ | ⟨p, _ | ⟨q, rest⟩⟩
  · rfl
  · rfl
  · simp at h

theorem intermediatePoints_cons (t : α) (ps : List (Point α)) (h : 1 < ps.length) :
    intermediatePoints t ps = ps :: intermediatePoints t (lerpStep t ps) := by
  unfold intermediatePoints
  congr 1
  obtain ⟨m, hm⟩ : ∃ m, ps.length = m + 1 := ⟨ps.length - 1, by omega⟩
  have hl : (lerpStep t ps).length = m := by rw [lerpStep_length, hm]; omega
  rw [hm, hl]
  simp only [intermediateAux, h, if_true]

/-- A cons with a nonempty tail keeps the tail's last element. -/
theorem getLast?_cons_of_ne_nil {β : Type} (a : β) {l : List β} (h : l ≠ []) :
    (a :: l).getLast? = l.getLast? := by
  rcases l with _ | ⟨b, l⟩
  · exact absurd rfl h
  · exact List.getLast?_cons_cons

/-- Main driver: on a nonempty list, the recursive evaluation succeeds with
budget `length` and its value is the single point of the last pyramid
level. -/
theorem calc_pyramid_agree (t : α) :
    ∀ (n : ℕ) (ps : List (Point α)), ps.length = n → ps ≠ [] →
      ∃ p, calcBezierAux t n ps = some p ∧
        (intermediatePoints t ps).getLast? = some [p] := by
  intro n
  induction n with
  | zero =>
    intro ps h hne
    exact absurd (List.length_eq_zero.mp h) hne
  | succ m ih =>
    intro ps h hne
    by_cases h1 : ps.length = 1
    · obtain ⟨p, rfl⟩ := List.length_eq_one.mp h1
      refine ⟨p, ?_, ?_⟩
      · simp [calcBezierAux]
      · rw [intermediatePoints_of_length_le_one t [p] (by simp)]
        rfl
    · have h2 : 1 < ps.length := by
        have : 0 < ps.length := List.length_pos.mpr hne
        omega
      have hlen : (lerpStep t ps).length = m := by rw [lerpStep_length, h]; omega
      have hne' : lerpStep t ps ≠ [] := by
        refine List.length_pos.mp ?_
        rw [hlen]; omega
      obtain ⟨p, hp1, hp2⟩ := ih (lerpStep t ps) hlen hne'
      refine ⟨p, ?_, ?_⟩
      · simp only [calcBezierAux, h1, if_false]
        exact hp1
      · rw [intermediatePoints_cons t ps h2,
          getLast?_cons_of_ne_nil ps (by simp [intermediatePoints])]
        exact hp2

theorem intermediatePoints_map_length (t : α) :
    ∀ (n : ℕ) (ps : List (Point α)), ps.length = n → ps ≠ [] →
      (intermediatePoints t ps).map List.length
        = (List.range n).map (fun k => n - k) := by
  intro n
  induction n with
  | zero =>
    intro ps h hne
    exact absurd (List.length_eq_zero.mp h) hne
  | succ m ih =>
    intro ps h hne
    by_cases h1 : 1 < ps.length
    · have hm : 1 ≤ m := by omega
      have hlen : (lerpStep t ps).length = m := by rw [lerpStep_length, h]; omega
      have hne' : lerpStep t ps ≠ [] := by
        refine List.length_pos.mp ?_
        rw [hlen]; omega
      rw [intermediatePoints_cons t ps h1, List.map_cons, ih _ hlen hne', h,
        List.range_succ_eq_map]
      simp [List.map_map, Function.comp_def, Nat.succ_sub_succ]
    · have hlen1 : ps.length = 1 := by
        have : 0 < ps.length := List.length_pos.mpr hne
        omega
      have hm0 : m = 0 := by omega
      subst hm0
      rw [intermediatePoints_of_length_le_one t ps (by omega)]
      simp [hlen1, List.range_succ]

theorem calcBezierAux_zero_eq_head? :
    ∀ (n : ℕ) (ps : List (Point α)), ps.length = n → ps ≠ [] →
      calcBezierAux (0 : α) n ps = ps.head? := by
  intro n
  induction n with
  | zero =>
    intro ps h hne
    exact absurd (List.length_eq_zero.mp h) hne
  | succ m ih =>
    intro ps h hne
    by_cases h1 : ps.length = 1
    · simp [calcBezierAux, h1]
    · have h2 : 1 < ps.length := by
        have : 0 < ps.length := List.length_pos.mpr hne
        omega
      have hd : ps.dropLast.length = m := by rw [List.length_dropLast, h]; omega
      have hdne : ps.dropLast ≠ [] := by
        refine List.length_pos.mp ?_
        rw [hd]; omega
      simp only [calcBezierAux, h1, if_false, lerpStep_zero]
      rw [ih ps.dropLast hd hdne]
      rcases ps with _ | ⟨a, _ | ⟨b, l⟩⟩
      · exact absurd rfl hne
      · simp at h2
      · rw [List.dropLast_cons₂]
        rfl

theorem calcBezierAux_one_eq_getLast? :
    ∀ (n : ℕ) (ps : List (Point α)), ps.length = n → ps ≠ [] →
      calcBezierAux (1 : α) n ps = ps.getLast? := by
  intro n
  induction n with
  | zero =>
    intro ps h hne
    exact absurd (List.length_eq_zero.mp h) hne
  | succ m ih =>
    intro ps h hne
    by_cases h1 : ps.length = 1
    · obtain ⟨p, rfl⟩ := List.length_eq_one.mp h1
      simp [calcBezierAux]
    · have h2 : 1 < ps.length := by
        have : 0 < ps.length := List.length_pos.mpr hne
        omega
      have hd : ps.tail.length = m := by rw [List.length_tail, h]; omega
      have hdne : ps.tail ≠ [] := by
        refine List.length_pos.mp ?_
        rw [hd]; omega
      simp only [calcBezierAux, h1, if_false, lerpStep_one]
      rw [ih ps.tail hd hdne]
      rcases ps with _ | ⟨a, _ | ⟨b, l⟩⟩
      · exact absurd rfl hne
      · simp at h2
      · rw [List.tail_cons, List.getLast?_cons_cons]

/-! ### Lemmas about the layout and the drag update -/

theorem layoutPoints_length (sinf : α → α) (piv : α) (safe : ℤ) :
    (layoutPoints sinf piv safe).length = safe.toNat + 1 := by
  rw [layoutPoints, List.length_map, List.length_range]

theorem orderEffect_some (sinf : α → α) (piv : α) (n : ℤ) (prev : List (Point α)) :
    orderEffect sinf piv (some n) prev = layoutPoints sinf piv (max 1 (min 100 n)) := by
  have hpos : 0 < (layoutPoints sinf piv (max 1 (min 100 n))).length := by
    rw [layoutPoints_length]; omega
  simp only [orderEffect, safeOrder, layoutArray, hpos, if_true]

theorem layoutPoints_getElem (sinf : α → α) (piv : α) (safe : ℤ) (i : ℕ)
    (h : i < safe.toNat + 1) :
    (layoutPoints sinf piv safe)[i]? =
      some ⟨50 + ((i : α) * 700) / (safe : α),
            200 - sinf (((i : α) * piv) / (safe : α)) * 150⟩ := by
  rw [layoutPoints, List.getElem?_map, List.getElem?_range h, Option.map_some']

theorem mapIdx_getElem? {β γ : Type} (f : ℕ → β → γ) :
    ∀ (l : List β) (j : ℕ), (l.mapIdx f)[j]? = Option.map (f j) l[j]? := by
  intro l
  induction l generalizing f with
  | nil => intro j; simp
  | cons a l ih =>
    intro j
    rcases j with _ | j
    · simp [List.mapIdx_cons]
    · simp only [List.mapIdx_cons, List.getElem?_cons_succ]
      exact ih (fun i => f (i + 1)) j

/-! ### Claim theorems -/

/-- C1: for every t and every nonempty control-point sequence,
`calculateBezierPoint t ps` succeeds and its value is exactly the single
point contained in the final level of `intermediatePoints t ps` — the
recursive evaluation and the iterative level construction agree. -/
theorem evaluate_eq_final_level (t : α) (ps : List (Point α)) (h : ps ≠ []) :
    ∃ p : Point α, calculateBezierPoint t ps = some p ∧
      (intermediatePoints t ps).getLast? = some [p] :=
  calc_pyramid_agree t ps.length ps rfl h

theorem evaluate_eq_final_level_witness :
    calculateBezierPoint (0 : ℚ) [⟨1, 2⟩, ⟨3, 4⟩] = some ⟨1, 2⟩ ∧
    (intermediatePoints (0 : ℚ) [⟨1, 2⟩, ⟨3, 4⟩]).getLast? = some [⟨1, 2⟩] := by
  obtain ⟨p, h1, h2⟩ :=
    evaluate_eq_final_level (0 : ℚ) [⟨1, 2⟩, ⟨3, 4⟩] (by decide)
  have hval : calculateBezierPoint (0 : ℚ) [⟨1, 2⟩, ⟨3, 4⟩] = some ⟨1, 2⟩ :=
    (calcBezierAux_zero_eq_head? 2 [⟨1, 2⟩, ⟨3, 4⟩] rfl (by decide)).trans rfl
  rw [hval] at h1
  injection h1 with h3
  rw [← h3] at h2
  exact ⟨hval, h2⟩

/-- C2 counterexample: on the empty control-point sequence the pyramid has
one level (the empty level), not `len(points) = 0` levels, so the level
count `len(points)` claimed for every sequence fails at `points = []`. -/
theorem levels_count_empty_counterexample :
    (intermediatePoints (0 : ℚ) ([] : List (Point ℚ))).length
      ≠ ([] : List (Point ℚ)).length := by
  decide

/-- C2 (amended): for every nonempty control-point sequence the pyramid has
exactly `len(points)` levels with level k holding `len(points) - k` points,
and a sequence of 0 or 1 points is returned unchanged as the sole level
(so the empty sequence yields one level, not zero). -/
theorem levels_shape (t : α) (ps : List (Point α)) :
    (ps ≠ [] →
      (intermediatePoints t ps).length = ps.length ∧
      (intermediatePoints t ps).map List.length
        = (List.range ps.length).map (fun k => ps.length - k)) ∧
    (ps.length ≤ 1 → intermediatePoints t ps = [ps]) := by
  constructor
  · intro h
    have hmap := intermediatePoints_map_length t ps.length ps rfl h
    refine ⟨?_, hmap⟩
    have hlen := congrArg List.length hmap
    simpa using hlen
  · exact intermediatePoints_of_length_le_one t ps

theorem levels_shape_witness :
    (intermediatePoints (0 : ℚ) [⟨0, 0⟩, ⟨2, 2⟩]).map List.length = [2, 1] ∧
    intermediatePoints (0 : ℚ) [⟨5, 5⟩] = [[⟨5, 5⟩]] := by
  constructor
  · have h := ((levels_shape (0 : ℚ) [⟨0, 0⟩, ⟨2, 2⟩]).1 (by decide)).2
    have hr : (List.range ([⟨0, 0⟩, ⟨2, 2⟩] : List (Point ℚ)).length).map
        (fun k => ([⟨0, 0⟩, ⟨2, 2⟩] : List (Point ℚ)).length - k) = [2, 1] := by decide
    exact h.trans hr
  · exact (levels_shape (0 : ℚ) [⟨5, 5⟩]).2 (by decide)

/-- C3: on the empty control-point list the source recursion never reaches
its base case — the interpolation loop maps `[]` to `[]`, so within every
call budget the evaluation is still running (`none`).  The code therefore
overflows the call stack instead of returning the defined InvalidInput
result the specification requires. -/
theorem evaluate_empty_diverges (t : α) :
    calculateBezierPoint t ([] : List (Point α)) = none ∧
    ∀ fuel : ℕ, calcBezierAux t fuel ([] : List (Point α)) = none :=
  ⟨rfl, calcBezierAux_empty t⟩

/-- C4: evaluation at t = 0 returns the first control point and evaluation
at t = 1 returns the last control point, for every nonempty sequence. -/
theorem evaluate_endpoints (ps : List (Point α)) (h : ps ≠ []) :
    calculateBezierPoint (0 : α) ps = ps.head? ∧
    calculateBezierPoint (1 : α) ps = ps.getLast? :=
  ⟨calcBezierAux_zero_eq_head? ps.length ps rfl h,
   calcBezierAux_one_eq_getLast? ps.length ps rfl h⟩

theorem evaluate_endpoints_witness :
    calculateBezierPoint (0 : ℚ) [⟨1, 2⟩, ⟨3, 4⟩] = some ⟨1, 2⟩ ∧
    calculateBezierPoint (1 : ℚ) [⟨1, 2⟩, ⟨3, 4⟩] = some ⟨3, 4⟩ := by
  have h := evaluate_endpoints (α := ℚ) [⟨1, 2⟩, ⟨3, 4⟩] (by decide)
  have h1 : ([⟨1, 2⟩, ⟨3, 4⟩] : List (Point ℚ)).head? = some ⟨1, 2⟩ := by decide
  have h2 : ([⟨1, 2⟩, ⟨3, 4⟩] : List (Point ℚ)).getLast? = some ⟨3, 4⟩ := by decide
  exact ⟨h.1.trans h1, h.2.trans h2⟩

/-- C5: the sampled curve is empty for an empty control-point sequence;
otherwise it has exactly 100 entries, entry i being the evaluation at
`t = i/99`, so entry 0 evaluates at t = 0 and entry 99 at t = 1. -/
theorem curvePoints_spec (ps : List (Point α)) :
    (ps = [] → curvePoints ps = []) ∧
    (ps ≠ [] →
      (curvePoints ps).length = 100 ∧
      (∀ i : ℕ, i < 100 →
        (curvePoints ps)[i]? = some (calculateBezierPoint ((i : α) / 99) ps)) ∧
      (curvePoints ps)[0]? = some (calculateBezierPoint (0 : α) ps) ∧
      (curvePoints ps)[99]? = some (calculateBezierPoint (1 : α) ps)) := by
  constructor
  · intro h; subst h; rfl
  · intro h
    have hlen : ps.length ≠ 0 := by
      have := List.length_pos.mpr h
      omega
    have hcp : curvePoints ps
        = (List.range 100).map fun (i : ℕ) => calculateBezierPoint ((i : α) / 99) ps := by
      rw [curvePoints, if_neg hlen]
    have hget : ∀ i : ℕ, i < 100 →
        (curvePoints ps)[i]? = some (calculateBezierPoint ((i : α) / 99) ps) := by
      intro i hi
      rw [hcp, List.getElem?_map, List.getElem?_range hi, Option.map_some']
    refine ⟨?_, hget, ?_, ?_⟩
    · rw [hcp, List.length_map, List.length_range]
    · have h0 := hget 0 (by norm_num)
      simpa using h0
    · have h99 := hget 99 (by norm_num)
      have h1 : ((99 : ℕ) : α) / 99 = 1 := by
        rw [Nat.cast_ofNat]
        exact div_self (by norm_num)
      rw [h1] at h99
      exact h99

theorem curvePoints_spec_witness :
    curvePoints ([] : List (Point ℚ)) = [] ∧
    (curvePoints ([⟨0, 0⟩, ⟨2, 2⟩] : List (Point ℚ))).length = 100 :=
  ⟨(curvePoints_spec ([] : List (Point ℚ))).1 rfl,
   ((curvePoints_spec ([⟨0, 0⟩, ⟨2, 2⟩] : List (Point ℚ))).2 (by decide)).1⟩

/-- C6: for every integer order the initialization effect clamps it to
[1,100] and replaces the whole sequence by clamped+1 points with
`x = 50 + i*700/clamped` and `y = 200 - sin(i*PI/clamped)*150`; in
particular an in-range order n yields n+1 points and out-of-range orders
clamp to 1 or 100. -/
theorem setOrder_spec (sinf : α → α) (piv : α) (n : ℤ) (prev : List (Point α)) :
    orderEffect sinf piv (some n) prev = layoutPoints sinf piv (max 1 (min 100 n)) ∧
    (orderEffect sinf piv (some n) prev).length = (max 1 (min 100 n)).toNat + 1 ∧
    (∀ i : ℕ, i < (max 1 (min 100 n)).toNat + 1 →
      (orderEffect sinf piv (some n) prev)[i]? =
        some ⟨50 + ((i : α) * 700) / ((max 1 (min 100 n) : ℤ) : α),
              200 - sinf (((i : α) * piv) / ((max 1 (min 100 n) : ℤ) : α)) * 150⟩) ∧
    (1 ≤ n ∧ n ≤ 100 → (orderEffect sinf piv (some n) prev).length = n.toNat + 1) ∧
    (n < 1 → orderEffect sinf piv (some n) prev = layoutPoints sinf piv 1) ∧
    (100 < n → orderEffect sinf piv (some n) prev = layoutPoints sinf piv 100) := by
  have he := orderEffect_some sinf piv n prev
  refine ⟨he, ?_, ?_, ?_, ?_, ?_⟩
  · rw [he, layoutPoints_length]
  · intro i hi
    rw [he]
    exact layoutPoints_getElem sinf piv _ i hi
  · rintro ⟨ha, hb⟩
    rw [he, layoutPoints_length]
    omega
  · intro hlt
    rw [he]
    congr 1
    omega
  · intro hgt
    rw [he]
    congr 1
    omega

theorem setOrder_spec_witness :
    (orderEffect (fun _ => (0 : ℚ)) 0 (some 3) []).length = 4 ∧
    orderEffect (fun _ => (0 : ℚ)) 0 (some 200) [] = layoutPoints (fun _ => (0 : ℚ)) 0 100 :=
  ⟨(setOrder_spec (α := ℚ) (fun _ => 0) 0 3 []).2.2.2.1 ⟨by decide, by decide⟩,
   (setOrder_spec (α := ℚ) (fun _ => 0) 0 200 []).2.2.2.2.2 (by decide)⟩

/-! ### Helper lemmas for the drag update -/

theorem handleMouseMove_no_ctm (di : ℕ) (m : Bool) (sp : Point α) (prev : List (Point α)) :
    handleMouseMove (some di) m false sp prev = prev := by
  cases m
  · rfl
  · rfl

theorem mapIdx_update_ne {β : Type} (g : β) (di j : ℕ) (l : List β) (hj : j ≠ di) :
    (l.mapIdx fun i p => if i = di then g else p)[j]? = l[j]? := by
  rw [mapIdx_getElem?]
  rcases l[j]? with _ | p
  · rfl
  · simp [hj]

theorem mapIdx_update_eq {β : Type} (g : β) (di : ℕ) (l : List β) (h : di < l.length) :
    (l.mapIdx fun i p => if i = di then g else p)[di]? = some g := by
  rw [mapIdx_getElem?, List.getElem?_eq_getElem h]
  simp

/-- C7: the drag move is a silent no-op when no drag is active, when the
svg element or its screen transform is unavailable, or when the dragged
index is out of range; otherwise it replaces exactly the point at the
dragged index with the position clamped to x in [0,800] and y in [0,400],
leaving every other index value-equal to before. -/
theorem movePoint_spec (dragging : Option ℕ) (svgMounted ctmOk : Bool) (sp : Point α)
    (prev : List (Point α)) :
    (dragging = none → handleMouseMove dragging svgMounted ctmOk sp prev = prev) ∧
    (svgMounted = false → handleMouseMove dragging svgMounted ctmOk sp prev = prev) ∧
    (ctmOk = false → handleMouseMove dragging svgMounted ctmOk sp prev = prev) ∧
    (handleMouseMove dragging svgMounted ctmOk sp prev).length = prev.length ∧
    (∀ i : ℕ, dragging = some i →
      (prev.length ≤ i → handleMouseMove dragging svgMounted ctmOk sp prev = prev) ∧
      (∀ j : ℕ, j ≠ i →
        (handleMouseMove dragging svgMounted ctmOk sp prev)[j]? = prev[j]?) ∧
      (svgMounted = true → ctmOk = true → i < prev.length →
        (handleMouseMove dragging svgMounted ctmOk sp prev)[i]?
          = some ⟨max 0 (min 800 sp.x), max 0 (min 400 sp.y)⟩)) := by
  rcases dragging with _ | di
  · exact ⟨fun _ => rfl, fun _ => rfl, fun _ => rfl, rfl,
      fun i hi => Option.noConfusion hi⟩
  · rcases svgMounted with _ | _
    · refine ⟨fun hc => Option.noConfusion hc, fun _ => rfl, fun _ => rfl, rfl, ?_⟩
      intro i hi
      injection hi with hi'
      subst hi'
      exact ⟨fun _ => rfl, fun j _ => rfl, fun hc => Bool.noConfusion hc⟩
    · rcases ctmOk with _ | _
      · refine ⟨fun hc => Option.noConfusion hc, fun hc => Bool.noConfusion hc,
          fun _ => rfl, rfl, ?_⟩
        intro i hi
        injection hi with hi'
        subst hi'
        exact ⟨fun _ => rfl, fun j _ => rfl, fun _ hc => Bool.noConfusion hc⟩
      · have hup : handleMouseMove (some di) true true sp prev
            = prev.mapIdx fun i p =>
                if i = di then ⟨max 0 (min 800 sp.x), max 0 (min 400 sp.y)⟩ else p := rfl
        refine ⟨fun hc => Option.noConfusion hc, fun hc => Bool.noConfusion hc,
          fun hc => Bool.noConfusion hc, ?_, ?_⟩
        · rw [hup, List.length_mapIdx]
        · intro i hi
          injection hi with hi'
          subst hi'
          refine ⟨?_, ?_, ?_⟩
          · intro hout
            rw [hup]
            apply List.ext_getElem?
            intro j
            by_cases hj : j = di
            · subst hj
              rw [mapIdx_getElem?, List.getElem?_eq_none hout, Option.map_none']
            · exact mapIdx_update_ne _ di j prev hj
          · intro j hj
            rw [hup]
            exact mapIdx_update_ne _ di j prev hj
          · intro _ _ hin
            rw [hup]
            exact mapIdx_update_eq _ di prev hin

theorem movePoint_spec_witness :
    (handleMouseMove (some 0) true true (⟨900, 450⟩ : Point ℚ) [⟨1, 1⟩, ⟨2, 2⟩])[0]?
        = some ⟨800, 400⟩ ∧
    (handleMouseMove (some 0) true true (⟨900, 450⟩ : Point ℚ) [⟨1, 1⟩, ⟨2, 2⟩])[1]?
        = some ⟨2, 2⟩ := by
  have h := (movePoint_spec (some 0) true true (⟨900, 450⟩ : Point ℚ)
      [⟨1, 1⟩, ⟨2, 2⟩]).2.2.2.2 0 rfl
  have hx : max (0 : ℚ) (min 800 (⟨900, 450⟩ : Point ℚ).x) = 800 := by
    rw [show (⟨900, 450⟩ : Point ℚ).x = 900 from rfl,
      min_eq_left (by norm_num : (800 : ℚ) ≤ 900),
      max_eq_right (by norm_num : (0 : ℚ) ≤ 800)]
  have hy : max (0 : ℚ) (min 400 (⟨900, 450⟩ : Point ℚ).y) = 400 := by
    rw [show (⟨900, 450⟩ : Point ℚ).y = 450 from rfl,
      min_eq_left (by norm_num : (400 : ℚ) ≤ 450),
      max_eq_right (by norm_num : (0 : ℚ) ≤ 400)]
  constructor
  · have h1 := h.2.2 rfl rfl (by decide)
    rw [hx, hy] at h1
    exact h1
  · exact (h.2.1 1 (by decide)).trans rfl

/-- C8: the sampled curve computed from the component state depends only on
the control points: two states with the same points (and any t values)
yield identical output, which moreover equals `curvePoints` of the
points. -/
theorem curvePoints_independent_of_t (s1 s2 : AppState α) (h : s1.points = s2.points) :
    curvePointsOfState s1 = curvePointsOfState s2 ∧
    curvePointsOfState s1 = curvePoints s1.points := by
  constructor
  · simp only [curvePointsOfState, h]
  · rfl

theorem curvePoints_independent_of_t_witness :
    curvePointsOfState (⟨0, some 3, [⟨0, 0⟩, ⟨1, 1⟩], none⟩ : AppState ℚ)
      = curvePointsOfState (⟨1 / 2, some 3, [⟨0, 0⟩, ⟨1, 1⟩], none⟩ : AppState ℚ) :=
  (curvePoints_independent_of_t
    (⟨0, some 3, [⟨0, 0⟩, ⟨1, 1⟩], none⟩ : AppState ℚ)
    (⟨1 / 2, some 3, [⟨0, 0⟩, ⟨1, 1⟩], none⟩ : AppState ℚ) rfl).1

/-- C9 counterexample: a NaN order (a non-numeric entry parsed by
`parseInt`) is not clamped into [1,100] — `Math.max`/`Math.min` propagate
NaN — and the layout is not regenerated at all: the previous points are
kept unchanged, and in particular the result is not the order-1 layout
the claimed clamping would produce (nor any other, since their lengths
differ). -/
theorem nan_order_counterexample :
    safeOrder none = none ∧
    orderEffect (fun _ => (0 : ℚ)) 0 none [⟨1, 1⟩, ⟨2, 2⟩] = [⟨1, 1⟩, ⟨2, 2⟩] ∧
    orderEffect (fun _ => (0 : ℚ)) 0 none [⟨1, 1⟩, ⟨2, 2⟩]
      ≠ layoutPoints (fun _ => (0 : ℚ)) 0 1 := by
  refine ⟨rfl, rfl, ?_⟩
  have hl : layoutPoints (fun _ => (0 : ℚ)) 0 1 = [⟨50, 200⟩, ⟨750, 200⟩] := by
    show (List.range 2).map _ = _
    rw [show List.range 2 = [0, 1] from rfl]
    simp only [List.map_cons, List.map_nil]
    norm_num
  rw [hl]
  intro hcontra
  have h1 := List.head_eq_of_cons_eq hcontra
  have h2 := congrArg Point.x h1
  norm_num at h2

/-- C9 (amended): an integer order, however far out of range, is clamped
into [1,100] and the layout fully regenerated; a NaN order is not clamped
(NaN propagates through the clamp), the generated array is empty and the
length guard keeps the previous points unchanged.  Either way, if the
sequence had between 2 and 101 points before the event, it still does
after. -/
theorem order_input_spec (sinf : α → α) (piv : α) (o : Option ℤ) (prev : List (Point α))
    (h2 : 2 ≤ prev.length) (h101 : prev.length ≤ 101) :
    (∀ n : ℤ, o = some n →
      orderEffect sinf piv o prev = layoutPoints sinf piv (max 1 (min 100 n))) ∧
    (o = none → orderEffect sinf piv o prev = prev) ∧
    2 ≤ (orderEffect sinf piv o prev).length ∧
    (orderEffect sinf piv o prev).length ≤ 101 := by
  rcases o with _ | n
  · exact ⟨fun n hn => Option.noConfusion hn, fun _ => rfl, h2, h101⟩
  · refine ⟨?_, fun hc => Option.noConfusion hc, ?_, ?_⟩
    · intro m hm
      injection hm with hm'
      subst hm'
      exact orderEffect_some sinf piv n prev
    · rw [orderEffect_some, layoutPoints_length]
      omega
    · rw [orderEffect_some, layoutPoints_length]
      omega

theorem order_input_spec_witness :
    orderEffect (fun _ => (0 : ℚ)) 0 none [⟨3, 3⟩, ⟨4, 4⟩] = [⟨3, 3⟩, ⟨4, 4⟩] :=
  (order_input_spec (fun _ => (0 : ℚ)) 0 none [⟨3, 3⟩, ⟨4, 4⟩]
    (by decide) (by decide)).2.1 rfl

/-- C10 counterexample: on a 2-point sequence (order 1) the construction
has 2 levels, not `len(points) - 1 = 1`, refuting the claimed level
count. -/
theorem levels_count_counterexample :
    (intermediatePoints (0 : ℚ) [⟨0, 0⟩, ⟨2, 2⟩]).length
      ≠ ([⟨0, 0⟩, ⟨2, 2⟩] : List (Point ℚ)).length - 1 := by
  have h := intermediatePoints_map_length (0 : ℚ) 2 [⟨0, 0⟩, ⟨2, 2⟩] rfl (by decide)
  have hlen := congrArg List.length h
  simp only [List.length_map, List.length_range] at hlen
  rw [hlen]
  decide

/-- C10 (amended): on every nonempty sequence the evaluation terminates:
each recursive step shrinks the sequence by exactly one point, the
recursion needs exactly `len(points)` nested calls (it still runs within
any smaller budget), i.e. its recursion depth is the order
`len(points) - 1`, and the construction has `order + 1 = len(points)`
levels. -/
theorem evaluate_termination (t : α) (ps : List (Point α)) (h : ps ≠ []) :
    (lerpStep t ps).length = ps.length - 1 ∧
    (calcBezierAux t ps.length ps).isSome = true ∧
    (∀ f : ℕ, f < ps.length → calcBezierAux t f ps = none) ∧
    (intermediatePoints t ps).length = ps.length := by
  obtain ⟨p, hp, -⟩ := calc_pyramid_agree t ps.length ps rfl h
  refine ⟨lerpStep_length t ps, ?_, ?_, ?_⟩
  · rw [hp]
    rfl
  · exact fun f hf => calcBezierAux_none_of_lt t f ps hf
  · have hmap := intermediatePoints_map_length t ps.length ps rfl h
    have hlen := congrArg List.length hmap
    simpa using hlen

theorem evaluate_termination_witness :
    (lerpStep (0 : ℚ) [⟨0, 0⟩, ⟨2, 2⟩]).length = 1 ∧
    (calcBezierAux (0 : ℚ) 2 [⟨0, 0⟩, ⟨2, 2⟩]).isSome = true ∧
    calcBezierAux (0 : ℚ) 1 [⟨0, 0⟩, ⟨2, 2⟩] = none ∧
    (intermediatePoints (0 : ℚ) [⟨0, 0⟩, ⟨2, 2⟩]).length = 2 := by
  have h := evaluate_termination (0 : ℚ) [⟨0, 0⟩, ⟨2, 2⟩] (by decide)
  exact ⟨h.1, h.2.1, h.2.2.1 1 (by decide), h.2.2.2⟩

end Bezier
